import Mathlib

/-!
# fibdrv: the decimal big-number engine and its file interface

A shallow embedding of `fibdrv.c`.

* A `Bignum` is the C struct `{ char buf[BUFLEN]; }`; a cell is the value of a
  `char`, held as an `Int`.  `char` is the signed 8-bit type of the x86 kernel
  this module is built for, so a value stored into a cell is reduced into
  `[-128, 127]` (`toChar`).
* A buffer access `b->buf[idx]` outside `0 .. BUFLEN-1` is not a defined
  behaviour of the C program.  `Bignum.load` and `Bignum.store` make the access
  explicit and stop with `Fault.outOfBounds idx` there.
* `loff_t` is a signed 64-bit integer; the kernel is compiled with wrapping
  signed arithmetic, so sums and differences of `loff_t` are reduced by `wrap64`.
-/

namespace Fibdrv

/-! ## Constants and macros -/

/-- The macro `MAX_LENGTH`, defined as 100. -/
def MAX_LENGTH : Int := 100

/-- The macro `BUFLEN`, defined as 100. -/
def BUFLEN : Nat := 100

/-- The macro `ASC2INT(x)`, defined as `(x - 0x30)`. -/
def ASC2INT (x : Int) : Int := x - 0x30

/-- The macro `INT2ASC(x)`, defined as `(x + 0x30)`. -/
def INT2ASC (x : Int) : Int := x + 0x30

/-- Conversion of an `int` value to `char` (signed, 8 bits, two's complement). -/
def toChar (v : Int) : Int := (v + 128) % 256 - 128

/-- Reduction of a mathematical integer to `loff_t` (signed, 64 bits, wrapping). -/
def wrap64 (v : Int) : Int := (v + 2 ^ 63) % 2 ^ 64 - 2 ^ 63

/-! ## Memory model of a `Bignum` -/

/-- The ways in which the embedded code can leave defined behaviour. -/
inductive Fault where
  /-- An access `buf[idx]` with `idx` outside `0 .. BUFLEN-1`. -/
  | outOfBounds (idx : Int)
  /-- The local array `Bignum f[k + 2]` cannot hold `f[0]` and `f[1]`. -/
  | badFrame (k : Int)
  /-- The loop model ran out of steps (`bn_add_fuel`: this never happens). -/
  | outOfFuel
  deriving DecidableEq, Repr

instance instDecidableEqExcept {ε α : Type} [DecidableEq ε] [DecidableEq α] :
    DecidableEq (Except ε α)
  | .ok a, .ok b =>
    if h : a = b then isTrue (by rw [h]) else isFalse (fun h2 => h (Except.ok.inj h2))
  | .error a, .error b =>
    if h : a = b then isTrue (by rw [h]) else isFalse (fun h2 => h (Except.error.inj h2))
  | .ok _, .error _ => isFalse (fun h => Except.noConfusion h)
  | .error _, .ok _ => isFalse (fun h => Except.noConfusion h)

/-- The type `typedef struct { char buf[BUFLEN]; } Bignum;`: the list of its cells,
index 0 first. -/
structure Bignum where
  buf : List Int
  deriving DecidableEq, Repr

/-- Read of `b->buf[idx]`. -/
def Bignum.load (b : Bignum) (idx : Int) : Except Fault Int :=
  if 0 ≤ idx ∧ idx < BUFLEN then .ok (b.buf.getD idx.toNat 0)
  else .error (.outOfBounds idx)

/-- Write `b->buf[idx] = v` (the value is converted to `char`). -/
def Bignum.store (b : Bignum) (idx : Int) (v : Int) : Except Fault Bignum :=
  if 0 ≤ idx ∧ idx < BUFLEN then .ok ⟨b.buf.set idx.toNat (toChar v)⟩
  else .error (.outOfBounds idx)

/-! ## The big-number primitives -/

/-- The result of `bn_zero`: cells `0..98` are set to `0`, cell `99` to `'0'`. -/
def bn_zero : Bignum := ⟨List.replicate 99 0 ++ [48]⟩

/-- The result of `bn_one`: cells `0..98` are set to `0`, cell `99` to `'1'`. -/
def bn_one : Bignum := ⟨List.replicate 99 0 ++ [49]⟩

/-- The result of `bn_assgin(dest, src)`: cells `0..99` of `src` copied into `dest`. -/
def bn_assgin (src : Bignum) : Bignum :=
  ⟨(List.range 100).map fun i => src.buf.getD i 0⟩

/-- The statement `if (b->buf[idx]) dest->buf[idx] += ASC2INT(b->buf[idx]);`
of the adder loop (line 62 with `b = x`, line 64 with `b = y`). -/
def bn_add_digit (b dest : Bignum) (idx : Int) : Except Fault Bignum := do
  let bc ← b.load idx
  if bc ≠ 0 then do
    let d ← dest.load idx
    dest.store idx (d + ASC2INT bc)
  else pure dest

/-- The carry step and the conversion to ASCII of the adder loop (lines 66-70). -/
def bn_add_carry (dest : Bignum) (idx : Int) : Except Fault Bignum := do
  let d ← dest.load idx
  let dest ← if d ≥ 10 then do
      let dest ← dest.store idx (d - 10)
      dest.store (idx - 1) 1
    else pure dest
  let d ← dest.load idx
  dest.store idx (INT2ASC d)

/-- The body of the adder loop at position `idx` (lines 62-70); the caller
then decrements `idx`. -/
def bn_add_body (x y dest : Bignum) (idx : Int) : Except Fault Bignum := do
  let dest ← bn_add_digit x dest idx
  let dest ← bn_add_digit y dest idx
  bn_add_carry dest idx

/-- The loop condition `x->buf[idx] != 0 || y->buf[idx] != 0`
(`||` evaluates its right operand only when the left one is false). -/
def bn_add_cond (x y : Bignum) (idx : Int) : Except Fault Bool := do
  let xc ← x.load idx
  if xc ≠ 0 then pure true
  else do
    let yc ← y.load idx
    pure (decide (yc ≠ 0))

/-- The `while` loop of `bn_add` (lines 61-72), from position `idx` with the
current `dest`; returns the final `idx` and `dest`.  The first argument bounds
the number of evaluations of the loop condition. -/
def bn_add_while (x y : Bignum) : Nat → Int → Bignum → Except Fault (Int × Bignum)
  | 0, _, _ => .error .outOfFuel
  | fuel + 1, idx, dest => do
    let c ← bn_add_cond x y idx
    if c then do
      let dest ← bn_add_body x y dest idx
      bn_add_while x y fuel (idx - 1) dest
    else pure (idx, dest)

/-- The function `bn_add(dest, x, y)`; the result is the final content of `dest`.
`dest` is first overwritten with `0` in all its cells, so its previous content
plays no role; `x` and `y` are read only and are distinct from `dest`.
The loop evaluates its condition at `idx = 99, 98, ..` and a load at `idx = -1`
faults, so `BUFLEN + 1` evaluations always suffice. -/
def bn_add (x y : Bignum) : Except Fault Bignum := do
  let idx : Int := (BUFLEN : Int) - 1
  let dest : Bignum := ⟨List.replicate 100 0⟩
  let (idx, dest) ← bn_add_while x y (BUFLEN + 1) idx dest
  let d ← dest.load idx
  if d ≠ 0 then dest.store idx (INT2ASC d) else pure dest

/-! ## The sequence engine -/

/-- One iteration `bn_add(&f[i], &f[i - 1], &f[i - 2])` of the loop of
`fib_sequence`.  `f` is the initialised prefix `f[0 .. i-1]` of the local
array, and the new element `f[i]` is appended to it. -/
def fib_step (f : List Bignum) (i : Nat) : Except Fault (List Bignum) := do
  let d ← bn_add (f.getD (i - 1) ⟨[]⟩) (f.getD (i - 2) ⟨[]⟩)
  pure (f ++ [d])

/-- The array `f` of `fib_sequence(k)` after `bn_zero(&f[0])`, `bn_one(&f[1])`
and the loop `for (int i = 2; i <= k; i++)`. -/
def fib_table (k : Nat) : Except Fault (List Bignum) :=
  ((List.range (k + 1)).drop 2).foldlM fib_step [bn_zero, bn_one]

/-- The function `fib_sequence(k)`: the copy of `f[k]` (the allocation of the result is
taken to succeed).  For `k < 0` the array `Bignum f[k + 2]` has no element
`f[1]`. -/
def fib_sequence (k : Int) : Except Fault Bignum :=
  if k < 0 then .error (.badFrame k)
  else do
    let f ← fib_table k.toNat
    pure (bn_assgin (f.getD k.toNat ⟨[]⟩))

/-! ## The file operations -/

/-- The scan `for (start = 0; start < BUFLEN && !n->buf[start]; ++start);` of
`fib_read`.  The first argument counts the increments still possible
(`start` cannot pass `BUFLEN`). -/
def fib_read_start (n : Bignum) : Nat → Nat → Nat
  | 0, start => start
  | fuel + 1, start =>
    if start < BUFLEN ∧ n.buf.getD start 0 = 0 then fib_read_start n fuel (start + 1)
    else start

/-- Lines 127-135 of `fib_read` on the computed number `n`: the bytes handed to
`put_user`, in order, and the returned count `BUFLEN - start`. -/
def render (n : Bignum) : List Int × Int :=
  let start := fib_read_start n BUFLEN 0
  ((List.range' start (BUFLEN - start)).map fun i => n.buf.getD i 0,
   (BUFLEN : Int) - (start : Int))

/-- The function `fib_read(file, buf, size, offset)`: the bytes written to the user buffer
and the return value; `size` is not used and `*offset` is not changed. -/
def fib_read (offset : Int) : Except Fault (List Int × Int) := do
  let n ← fib_sequence offset
  pure (render n)

/-- The kernel `struct file`, reduced to the field the driver uses. -/
structure File where
  f_pos : Int
  deriving DecidableEq, Repr

/-- The function `fib_device_lseek(file, offset, orig)`: the file after the call and the
returned position. -/
def fib_device_lseek (file : File) (offset : Int) (orig : Int) : File × Int :=
  let new_pos : Int := 0
  let new_pos : Int :=
    if orig = 0 then offset
    else if orig = 1 then wrap64 (file.f_pos + offset)
    else if orig = 2 then wrap64 (MAX_LENGTH - offset)
    else new_pos
  let new_pos : Int := if new_pos > MAX_LENGTH then MAX_LENGTH else new_pos
  let new_pos : Int := if new_pos < 0 then 0 else new_pos
  ({ file with f_pos := new_pos }, new_pos)

/-- The function `fib_write(file, buf, size, offset)`: "write operation is
skipped"; the arguments are not used, `*offset` is not changed and the
constant 1 is returned. -/
def fib_write (_buf : List Int) (_size : Int) (_offset : Int) : Int := 1

/-- Modelled from the spec: the Busy signal of `open_session`, the kernel error
number `EBUSY` (16), returned negated. -/
def EBUSY : Int := 16

/-- Modelled from the spec: the lock `fib_mutex`, "one non-reentrant,
non-blocking try-lock representing one active session"; `locked` says that a
session holds it. -/
structure Mutex where
  locked : Bool
  deriving DecidableEq, Repr

/-- Modelled from the spec: the kernel primitive `mutex_trylock`, which never
blocks: it returns 1 and takes the lock when the lock is free, and returns 0
and changes nothing when the lock is held. -/
def mutex_trylock (m : Mutex) : Mutex × Int :=
  if m.locked then (m, 0) else (⟨true⟩, 1)

/-- Modelled from the spec: the kernel primitive `mutex_unlock`, which releases
the lock. -/
def mutex_unlock (_m : Mutex) : Mutex := ⟨false⟩

/-- The function `fib_open(inode, file)` on the lock `fib_mutex`: the lock
after the call and the return value. -/
def fib_open (fib_mutex : Mutex) : Mutex × Int :=
  let r := mutex_trylock fib_mutex
  if r.2 = 0 then (r.1, -EBUSY) else (r.1, 0)

/-- The function `fib_release(inode, file)` on the lock `fib_mutex`: the lock
after the call and the return value. -/
def fib_release (fib_mutex : Mutex) : Mutex × Int :=
  (mutex_unlock fib_mutex, 0)

/-! ## The gateway as a state machine -/

/-- The state of the gateway: the open file with its position, and the lock. -/
structure Gateway where
  file : File
  fib_mutex : Mutex
  deriving DecidableEq, Repr

/-- The calls a session makes on its open file. -/
inductive Op where
  /-- The call `lseek(fd, offset, orig)`. -/
  | seek (offset orig : Int)
  /-- The call `read(fd, buf, size)`. -/
  | read
  /-- The call `write(fd, buf, size)`. -/
  | write (buf : List Int) (size : Int)
  deriving DecidableEq, Repr

/-- What a call hands back to the session. -/
inductive Ret where
  /-- The position returned by `fib_device_lseek`. -/
  | pos (p : Int)
  /-- The bytes and the count of `fib_read`, or the fault it stopped at. -/
  | bytes (r : Except Fault (List Int × Int))
  /-- The value returned by `fib_write`. -/
  | count (n : Int)
  deriving DecidableEq

/-- One call on the gateway.  `lseek` goes to `fib_device_lseek`, which stores
the new position; `read` and `write` hand the current position to `fib_read`
and `fib_write` as `*offset`, and neither of them assigns it. -/
def Gateway.step (s : Gateway) : Op → Gateway × Ret
  | .seek offset orig =>
    let r := fib_device_lseek s.file offset orig
    ({ s with file := r.1 }, .pos r.2)
  | .read => (s, .bytes (fib_read s.file.f_pos))
  | .write buf size => (s, .count (fib_write buf size s.file.f_pos))

/-- The state after a sequence of calls. -/
def Gateway.run (s : Gateway) (ops : List Op) : Gateway :=
  ops.foldl (fun t op => (t.step op).1) s

/-- The gateway right after a successful open: position 0, lock held. -/
def Gateway.initial : Gateway := ⟨⟨0⟩, ⟨true⟩⟩

/-! ## Vocabulary of the specification -/

/-- The occupied cells of a buffer: what follows the leading sentinel cells. -/
def Bignum.occupied (b : Bignum) : List Int := b.buf.dropWhile fun c => decide (c = 0)

/-- The index of the first cell that is not the sentinel (`BUFLEN` when every
cell is the sentinel). -/
def Bignum.first (b : Bignum) : Nat := (b.buf.takeWhile fun c => decide (c = 0)).length

/-- A cell holding an ASCII digit `'0' .. '9'`. -/
def IsDigit (c : Int) : Prop := 48 ≤ c ∧ c ≤ 57

instance (c : Int) : Decidable (IsDigit c) := by unfold IsDigit; infer_instance

/-- A well-formed BigDecimal: `BUFLEN` cells, whose occupied cells are a
non-empty run of ASCII digits reaching the end of the buffer, with no leading
`'0'` except for the single digit `"0"`. -/
def Bignum.WF (b : Bignum) : Prop :=
  b.buf.length = BUFLEN ∧ b.occupied ≠ [] ∧ (∀ c ∈ b.occupied, IsDigit c) ∧
    (b.occupied.head? = some 48 → b.occupied.length = 1)

instance (b : Bignum) : Decidable b.WF := by unfold Bignum.WF; infer_instance

/-- A string of ASCII digits read as a decimal number. -/
def decimal (cs : List Int) : Int := cs.foldl (fun acc c => 10 * acc + (c - 48)) 0

/-- The number a BigDecimal stands for: its occupied cells read in decimal. -/
def Bignum.value (b : Bignum) : Int := decimal b.occupied

/-- The spec's `digit_at`: the digit held by a cell, `0` for the sentinel. -/
def digit_at (c : Int) : Int := if c = 0 then 0 else c - 48

/-- A run of cells read in decimal, a sentinel cell counting as digit `0`. -/
def cellsVal (cs : List Int) : Int := cs.foldl (fun acc c => 10 * acc + digit_at c) 0

/-- The BigDecimal of a string of digits: the digits right-aligned in `BUFLEN`
cells, sentinel cells to their left. -/
def ofDigits (ds : List Int) : Bignum := ⟨List.replicate (BUFLEN - ds.length) 0 ++ ds⟩

/-- Every cell of the buffer is the sentinel or an ASCII digit, and there are
`BUFLEN` of them. -/
def CellsOK (b : Bignum) : Prop :=
  b.buf.length = 100 ∧ ∀ c ∈ b.buf, c = 0 ∨ IsDigit c

/-- The clamp of an integer into `[lo, hi]`. -/
def clamp (v lo hi : Int) : Int := max lo (min v hi)

/-! ## Cells, loads and stores -/

theorem toChar_small (v : Int) (h1 : -128 ≤ v) (h2 : v ≤ 127) : toChar v = v := by
  unfold toChar; omega

theorem load_in (b : Bignum) (n : Nat) (h : n < 100) :
    b.load (n : Int) = .ok (b.buf.getD n 0) := by
  unfold Bignum.load BUFLEN
  rw [if_pos ⟨by omega, by omega⟩]; simp

theorem store_in (b : Bignum) (n : Nat) (v : Int) (h : n < 100) :
    b.store (n : Int) v = .ok ⟨b.buf.set n (toChar v)⟩ := by
  unfold Bignum.store BUFLEN
  rw [if_pos ⟨by omega, by omega⟩]; simp

theorem load_neg (b : Bignum) (i : Int) (h : i < 0) : b.load i = .error (.outOfBounds i) := by
  unfold Bignum.load
  rw [if_neg (by omega)]

theorem getD_split (pre post : List Int) (c : Int) :
    (pre ++ c :: post).getD pre.length 0 = c := by
  induction pre with
  | nil => rfl
  | cons a t ih => simpa using ih

theorem set_split (pre post : List Int) (c v : Int) :
    (pre ++ c :: post).set pre.length v = pre ++ v :: post := by
  induction pre with
  | nil => rfl
  | cons a t ih => simp [ih]

theorem getD_replicate_zero (n i : Nat) (post : List Int) (h : i < n) :
    (List.replicate n (0 : Int) ++ post).getD i 0 = 0 := by
  induction n generalizing i with
  | zero => omega
  | succ k ih =>
    cases i with
    | zero => rfl
    | succ j => simpa [List.replicate_succ] using ih j (by omega)

/-! ## One iteration of the adder loop -/

theorem getD_at (pre post : List Int) (z c : Int) :
    (pre ++ z :: c :: post).getD (pre.length + 1) 0 = c := by
  induction pre with
  | nil => rfl
  | cons a t ih => simpa using ih

theorem set_at (pre post : List Int) (z c v : Int) :
    (pre ++ z :: c :: post).set (pre.length + 1) v = pre ++ z :: v :: post := by
  induction pre with
  | nil => rfl
  | cons a t ih => simp [ih]

theorem body_spec (x y : Bignum) (pre done : List Int) (c xc yc : Int)
    (hn : pre.length + 1 < 100)
    (hxc : x.buf.getD (pre.length + 1) 0 = xc) (hyc : y.buf.getD (pre.length + 1) 0 = yc)
    (hx : xc = 0 ∨ IsDigit xc) (hy : yc = 0 ∨ IsDigit yc) (hc : c = 0 ∨ c = 1) :
    bn_add_body x y ⟨pre ++ 0 :: c :: done⟩ ((pre.length + 1 : Nat) : Int) =
      .ok ⟨pre ++ (if 10 ≤ c + digit_at xc + digit_at yc then 1 else 0) ::
        (48 + (c + digit_at xc + digit_at yc) % 10) :: done⟩ := by
  have hidx : ((pre.length + 1 : Nat) : Int) - 1 = ((pre.length : Nat) : Int) := by
    push_cast; ring
  have hn0 : pre.length < 100 := by omega
  unfold IsDigit at hx hy
  simp only [bn_add_body, bn_add_digit, bn_add_carry, bind, Except.bind, pure, Except.pure,
    load_in _ _ hn, hxc, hyc, ASC2INT, INT2ASC, digit_at]
  by_cases h1 : xc = 0 <;> by_cases h2 : yc = 0 <;>
    simp only [h1, h2, if_true, if_false, ne_eq, not_true_eq_false, not_false_eq_true,
      load_in _ _ hn, store_in _ _ _ hn, getD_at, set_at, hidx, store_in _ _ _ hn0, set_split]
  all_goals
    unfold toChar
    have hc1 : 0 ≤ c ∧ c ≤ 1 := by omega
    have hx1 : xc = 0 ∨ (48 ≤ xc ∧ xc ≤ 57) := hx
    have hy1 : yc = 0 ∨ (48 ≤ yc ∧ yc ≤ 57) := hy
    split_ifs with h3 h4 h4 <;>
      simp only [Except.ok.injEq, Bignum.mk.injEq, List.append_cancel_left_eq, List.cons.injEq,
        and_true, true_and] <;>
      omega

/-! ## Decimal values of runs of cells -/

theorem cellsVal_foldl (cs : List Int) (a : Int) :
    cs.foldl (fun acc c => 10 * acc + digit_at c) a = a * 10 ^ cs.length + cellsVal cs := by
  induction cs generalizing a with
  | nil => simp [cellsVal]
  | cons c t ih =>
    simp only [List.foldl_cons, List.length_cons, cellsVal]
    rw [ih (10 * a + digit_at c), ih (10 * 0 + digit_at c)]
    ring

theorem cellsVal_nil : cellsVal [] = 0 := rfl

theorem cellsVal_cons (c : Int) (cs : List Int) :
    cellsVal (c :: cs) = digit_at c * 10 ^ cs.length + cellsVal cs := by
  have h := cellsVal_foldl cs (10 * 0 + digit_at c)
  simp only [cellsVal, List.foldl_cons]
  rw [h]
  simp [cellsVal]

theorem cellsVal_replicate_append (n : Nat) (cs : List Int) :
    cellsVal (List.replicate n 0 ++ cs) = cellsVal cs := by
  induction n with
  | zero => simp
  | succ k ih =>
    rw [List.replicate_succ, List.cons_append, cellsVal_cons, ih]
    simp [digit_at]

theorem decimal_eq_cellsVal (cs : List Int) (h : ∀ c ∈ cs, IsDigit c) :
    decimal cs = cellsVal cs := by
  unfold decimal cellsVal
  apply List.foldl_ext
  intro a c hc
  have := h c hc
  unfold IsDigit at this
  unfold digit_at
  rw [if_neg (by omega)]

theorem cellsVal_nonneg (cs : List Int) (h : ∀ c ∈ cs, IsDigit c) : 0 ≤ cellsVal cs := by
  induction cs with
  | nil => simp [cellsVal]
  | cons c t ih =>
    rw [cellsVal_cons]
    have hc := h c (List.mem_cons_self _ _)
    have ht := ih (fun d hd => h d (List.mem_cons_of_mem _ hd))
    unfold IsDigit at hc
    have : digit_at c = c - 48 := by unfold digit_at; rw [if_neg (by omega)]
    rw [this]
    have hp : (0 : Int) ≤ 10 ^ t.length := by positivity
    have h0 : (0 : Int) ≤ c - 48 := by omega
    nlinarith [mul_nonneg h0 hp]

theorem cellsVal_lt (cs : List Int) (h : ∀ c ∈ cs, IsDigit c) : cellsVal cs < 10 ^ cs.length := by
  induction cs with
  | nil => simp [cellsVal]
  | cons c t ih =>
    rw [cellsVal_cons, List.length_cons, pow_succ]
    have hc := h c (List.mem_cons_self _ _)
    have ht := ih (fun d hd => h d (List.mem_cons_of_mem _ hd))
    unfold IsDigit at hc
    have hd : digit_at c = c - 48 := by unfold digit_at; rw [if_neg (by omega)]
    rw [hd]
    have hp : (0 : Int) < 10 ^ t.length := by positivity
    nlinarith

/-! ## The adder loop -/

theorem CellsOK.getD {b : Bignum} (h : CellsOK b) (n : Nat) :
    b.buf.getD n 0 = 0 ∨ IsDigit (b.buf.getD n 0) := by
  by_cases hn : n < b.buf.length
  · rw [List.getD_eq_getElem _ _ hn]
    exact h.2 _ (List.getElem_mem hn)
  · left
    rw [List.getD_eq_default _ _ (by omega)]

theorem drop_getD (l : List Int) (n : Nat) (h : n < l.length) :
    l.drop n = l.getD n 0 :: l.drop (n + 1) := by
  rw [List.getD_eq_getElem _ _ h]
  exact List.drop_eq_getElem_cons h

theorem cond_spec (x y : Bignum) (n : Nat) (h : n < 100) :
    bn_add_cond x y (n : Int) =
      .ok (decide (x.buf.getD n 0 ≠ 0 ∨ y.buf.getD n 0 ≠ 0)) := by
  simp only [bn_add_cond, bind, Except.bind, pure, Except.pure, load_in _ _ h]
  by_cases h1 : x.buf.getD n 0 = 0 <;> simp [-List.getD_eq_getElem?_getD, h1]

theorem while_spec (x y : Bignum) (hx : CellsOK x) (hy : CellsOK y)
    (hx0 : x.buf.getD 0 0 = 0) (hy0 : y.buf.getD 0 0 = 0) :
    ∀ (n : Nat) (c : Int) (done : List Int), n + 1 + done.length = 100 →
      (c = 0 ∨ c = 1) → (∀ d ∈ done, IsDigit d) →
      c * 10 ^ done.length + cellsVal done =
        cellsVal (x.buf.drop (n + 1)) + cellsVal (y.buf.drop (n + 1)) →
      ∃ (m : Nat) (c1 : Int) (done1 : List Int),
        bn_add_while x y (n + 2) (n : Int) ⟨List.replicate n 0 ++ c :: done⟩ =
          .ok ((m : Int), ⟨List.replicate m 0 ++ c1 :: done1⟩) ∧
        m ≤ n ∧ m + 1 + done1.length = 100 ∧ (c1 = 0 ∨ c1 = 1) ∧
        (∀ d ∈ done1, IsDigit d) ∧
        c1 * 10 ^ done1.length + cellsVal done1 =
          cellsVal (x.buf.drop (m + 1)) + cellsVal (y.buf.drop (m + 1)) ∧
        x.buf.getD m 0 = 0 ∧ y.buf.getD m 0 = 0 ∧
        (m < n → x.buf.getD (m + 1) 0 ≠ 0 ∨ y.buf.getD (m + 1) 0 ≠ 0) := by
  intro n
  induction n with
  | zero =>
    intro c done hlen hc hdone hval
    refine ⟨0, c, done, ?_, le_refl _, hlen, hc, hdone, hval, hx0, hy0, by omega⟩
    have hcond := cond_spec x y 0 (by omega)
    simp only [hx0, hy0] at hcond
    simp only [bn_add_while, bind, Except.bind, pure, Except.pure]
    rw [hcond]
    simp
  | succ k ih =>
    intro c done hlen hc hdone hval
    have hk : k + 1 < 100 := by omega
    have hcond := cond_spec x y (k + 1) hk
    by_cases hstop : x.buf.getD (k + 1) 0 = 0 ∧ y.buf.getD (k + 1) 0 = 0
    · refine ⟨k + 1, c, done, ?_, le_refl _, hlen, hc, hdone, hval, hstop.1, hstop.2, by omega⟩
      simp only [hstop.1, hstop.2] at hcond
      rw [show k + 1 + 2 = (k + 2) + 1 from rfl]
      simp only [bn_add_while, bind, Except.bind, pure, Except.pure, hcond]
      simp
    · have hgo : (x.buf.getD (k + 1) 0 ≠ 0 ∨ y.buf.getD (k + 1) 0 ≠ 0) := by
        by_contra hcon
        push_neg at hcon
        exact hstop hcon
      have hbody := body_spec x y (List.replicate k 0) done c
        (x.buf.getD (k + 1) 0) (y.buf.getD (k + 1) 0)
        (by rw [List.length_replicate]; exact hk) (by rw [List.length_replicate])
        (by rw [List.length_replicate]) (hx.getD (k + 1)) (hy.getD (k + 1)) hc
      simp only [List.length_replicate] at hbody
      have hxd : 0 ≤ digit_at (x.buf.getD (k + 1) 0) ∧ digit_at (x.buf.getD (k + 1) 0) ≤ 9 := by
        have := hx.getD (k + 1)
        unfold IsDigit at this
        unfold digit_at
        split_ifs <;> omega
      have hyd : 0 ≤ digit_at (y.buf.getD (k + 1) 0) ∧ digit_at (y.buf.getD (k + 1) 0) ≤ 9 := by
        have := hy.getD (k + 1)
        unfold IsDigit at this
        unfold digit_at
        split_ifs <;> omega
      generalize hxdv : digit_at (x.buf.getD (k + 1) 0) = xd at hbody hxd
      generalize hydv : digit_at (y.buf.getD (k + 1) 0) = yd at hbody hyd
      have hlx : (x.buf.drop (k + 1 + 1)).length = done.length := by
        rw [List.length_drop, hx.1]; omega
      have hly : (y.buf.drop (k + 1 + 1)).length = done.length := by
        rw [List.length_drop, hy.1]; omega
      have hdig : digit_at (48 + (c + xd + yd) % 10) = (c + xd + yd) % 10 := by
        unfold digit_at
        rw [if_neg (by omega)]
        omega
      have hnew : (if 10 ≤ c + xd + yd then (1 : Int) else 0) * 10 ^ (done.length + 1) +
          ((c + xd + yd) % 10 * 10 ^ done.length + cellsVal done) =
          xd * 10 ^ done.length + cellsVal (x.buf.drop (k + 1 + 1)) +
            (yd * 10 ^ done.length + cellsVal (y.buf.drop (k + 1 + 1))) := by
        have hs : (if 10 ≤ c + xd + yd then (1 : Int) else 0) * 10 + (c + xd + yd) % 10 =
            c + xd + yd := by
          split_ifs <;> omega
        rw [pow_succ]
        linear_combination hval + (10 ^ done.length) * hs
      obtain ⟨m, c1, done1, hrun, hm, hlen1, hc1, hdone1, hval1, hxm, hym, hlast⟩ :=
        ih (if 10 ≤ c + xd + yd then 1 else 0) ((48 + (c + xd + yd) % 10) :: done)
          (by simp only [List.length_cons]; omega)
          (by split_ifs <;> simp)
          (by
            intro d hd
            rcases List.mem_cons.mp hd with h | h
            · rw [h]; unfold IsDigit; omega
            · exact hdone d h)
          (by
            rw [drop_getD x.buf (k + 1) (by rw [hx.1]; omega),
              drop_getD y.buf (k + 1) (by rw [hy.1]; omega)]
            rw [cellsVal_cons, cellsVal_cons, cellsVal_cons, hlx, hly, hdig, hxdv, hydv,
              List.length_cons]
            exact hnew)
      refine ⟨m, c1, done1, ?_, by omega, hlen1, hc1, hdone1, hval1, hxm, hym, ?_⟩
      · have hdec : decide (x.buf.getD (k + 1) 0 ≠ 0 ∨ y.buf.getD (k + 1) 0 ≠ 0) = true :=
          decide_eq_true hgo
        rw [hdec] at hcond
        have hrep : List.replicate (k + 1) (0 : Int) ++ c :: done =
            List.replicate k 0 ++ 0 :: c :: done := by
          rw [List.replicate_succ', List.append_assoc]; rfl
        have hidx : ((k + 1 : Nat) : Int) - 1 = (k : Int) := by push_cast; ring
        rw [show k + 1 + 2 = (k + 2) + 1 from rfl, hrep]
        simp only [bn_add_while, bind, Except.bind, hcond, hbody, if_true, hidx]
        exact hrun
      · intro hlt
        rcases Nat.lt_or_ge m k with h | h
        · exact hlast h
        · have hmk : m = k := by omega
          rw [hmk]
          exact hgo

/-! ## The shape of a well-formed BigDecimal -/

theorem occupied_shape (s : Nat) (d : Int) (ds : List Int) (hd : d ≠ 0) :
    (⟨List.replicate s 0 ++ d :: ds⟩ : Bignum).occupied = d :: ds := by
  unfold Bignum.occupied
  induction s with
  | zero => simp [List.dropWhile_cons, hd]
  | succ k ih => rw [List.replicate_succ, List.cons_append, List.dropWhile_cons]; simpa using ih

theorem WF_of_shape (s : Nat) (d : Int) (ds : List Int) (hlen : s + (ds.length + 1) = 100)
    (hd : IsDigit d) (hds : ∀ c ∈ ds, IsDigit c) (hlead : d = 48 → ds = []) :
    (⟨List.replicate s 0 ++ d :: ds⟩ : Bignum).WF := by
  have hd0 : d ≠ 0 := by unfold IsDigit at hd; omega
  unfold Bignum.WF
  rw [occupied_shape s d ds hd0]
  refine ⟨?_, by simp, ?_, ?_⟩
  · simp only [List.length_append, List.length_replicate, List.length_cons, BUFLEN]; omega
  · intro c hc
    rcases List.mem_cons.mp hc with h | h
    · rw [h]; exact hd
    · exact hds c h
  · intro h
    simp only [List.head?_cons, Option.some.injEq] at h
    rw [hlead h]; rfl

theorem Bignum.WF.shape {b : Bignum} (h : b.WF) :
    ∃ (s : Nat) (d : Int) (ds : List Int), b.buf = List.replicate s 0 ++ d :: ds ∧
      s + (ds.length + 1) = 100 ∧ b.occupied = d :: ds ∧ IsDigit d ∧
      (∀ c ∈ ds, IsDigit c) ∧ (d = 48 → ds = []) := by
  obtain ⟨hlen, hne, hdig, hlead⟩ := h
  have hsplit := List.takeWhile_append_dropWhile (fun c : Int => decide (c = 0)) b.buf
  have hzero : b.buf.takeWhile (fun c : Int => decide (c = 0)) =
      List.replicate (b.buf.takeWhile (fun c : Int => decide (c = 0))).length 0 := by
    rw [List.eq_replicate_iff]
    refine ⟨rfl, ?_⟩
    intro c hc
    simpa using List.mem_takeWhile_imp hc
  cases hocc : b.occupied with
  | nil => exact absurd hocc hne
  | cons d ds =>
    have hocc2 : b.buf.dropWhile (fun c : Int => decide (c = 0)) = d :: ds := hocc
    refine ⟨(b.buf.takeWhile (fun c : Int => decide (c = 0))).length, d, ds, ?_, ?_, rfl, ?_, ?_, ?_⟩
    · rw [← hzero, ← hocc2, hsplit]
    · have h2 := congrArg List.length hsplit
      rw [List.length_append, hocc2, hlen] at h2
      simpa [BUFLEN] using h2
    · exact hdig d (by rw [hocc]; exact List.mem_cons_self _ _)
    · intro c hc
      exact hdig c (by rw [hocc]; exact List.mem_cons_of_mem _ hc)
    · intro hd
      rw [hocc, hd] at hlead
      have := hlead rfl
      simpa using this

theorem Bignum.WF.cellsOK {b : Bignum} (h : b.WF) : CellsOK b := by
  obtain ⟨s, d, ds, hbuf, hlen, -, hd, hds, -⟩ := h.shape
  refine ⟨h.1, ?_⟩
  intro c hc
  rw [hbuf] at hc
  rcases List.mem_append.mp hc with h1 | h1
  · left; exact (List.mem_replicate.mp h1).2
  · right
    rcases List.mem_cons.mp h1 with h2 | h2
    · rw [h2]; exact hd
    · exact hds c h2

theorem getD_shape (s i : Nat) (l : List Int) (hl : ∀ c ∈ l, IsDigit c)
    (hi : i < s + l.length) : (List.replicate s 0 ++ l).getD i 0 = 0 ↔ i < s := by
  constructor
  · intro h
    by_contra hcon
    have hlen : i < (List.replicate s (0 : Int) ++ l).length := by
      rw [List.length_append, List.length_replicate]; exact hi
    rw [List.getD_eq_getElem _ _ hlen,
      List.getElem_append_right (by rw [List.length_replicate]; omega)] at h
    have hmem := hl _ (List.getElem_mem (l := l) (n := i - (List.replicate s (0 : Int)).length)
      (by rw [List.length_replicate]; omega))
    rw [h] at hmem
    unfold IsDigit at hmem
    omega
  · intro h
    exact getD_replicate_zero s i l h

theorem Bignum.WF.value_eq {b : Bignum} (h : b.WF) : b.value = cellsVal b.occupied :=
  decimal_eq_cellsVal _ h.2.2.1

theorem cellsVal_drop_of_sentinel {b : Bignum} (h : b.WF) (m : Nat) (hm : m < 100)
    (h0 : b.buf.getD m 0 = 0) : cellsVal (b.buf.drop (m + 1)) = b.value := by
  obtain ⟨s, d, ds, hbuf, hlen, hocc, hd, hds, -⟩ := h.shape
  have hall : ∀ c ∈ d :: ds, IsDigit c := by
    intro c hc
    rcases List.mem_cons.mp hc with h2 | h2
    · rw [h2]; exact hd
    · exact hds c h2
  rw [hbuf] at h0
  have hms : m < s := (getD_shape s m (d :: ds) hall (by simp only [List.length_cons]; omega)).mp h0
  rw [h.value_eq, hocc, hbuf, List.drop_append_of_le_length (by rw [List.length_replicate]; omega),
    List.drop_replicate, cellsVal_replicate_append]

theorem value_ge_of_occupied {b : Bignum} (h : b.WF) (i : Nat) (hi : i < 99)
    (hocc : b.buf.getD i 0 ≠ 0) : (10 : Int) ^ (99 - i) ≤ b.value := by
  obtain ⟨s, d, ds, hbuf, hlen, hoc, hd, hds, hlead⟩ := h.shape
  have hall : ∀ c ∈ d :: ds, IsDigit c := by
    intro c hc
    rcases List.mem_cons.mp hc with h2 | h2
    · rw [h2]; exact hd
    · exact hds c h2
  have hsi : s ≤ i := by
    by_contra hcon
    apply hocc
    rw [hbuf]
    exact (getD_shape s i (d :: ds) hall (by simp only [List.length_cons]; omega)).mpr (by omega)
  have hne : ds ≠ [] := by
    intro hnil
    rw [hnil] at hlen
    simp at hlen
    omega
  have hd48 : d ≠ 48 := fun hcon => hne (hlead hcon)
  unfold IsDigit at hd
  have hdig : digit_at d = d - 48 := by unfold digit_at; rw [if_neg (by omega)]
  rw [h.value_eq, hoc, cellsVal_cons, hdig]
  have hnn := cellsVal_nonneg ds hds
  have hpow : (10 : Int) ^ (99 - i) ≤ 10 ^ ds.length :=
    pow_le_pow_right₀ (by norm_num) (by omega)
  have hp : (0 : Int) < 10 ^ ds.length := by positivity
  have h1 : (1 : Int) ≤ d - 48 := by omega
  have h2 : 1 * (10 : Int) ^ ds.length ≤ (d - 48) * 10 ^ ds.length :=
    mul_le_mul_of_nonneg_right h1 (le_of_lt hp)
  linarith

theorem Bignum.WF.value_nonneg {b : Bignum} (h : b.WF) : 0 ≤ b.value := by
  rw [h.value_eq]
  exact cellsVal_nonneg _ h.2.2.1

theorem Bignum.WF.last_occupied {b : Bignum} (h : b.WF) : b.buf.getD 99 0 ≠ 0 := by
  obtain ⟨s, d, ds, hbuf, hlen, hoc, hd, hds, hlead⟩ := h.shape
  have hall : ∀ c ∈ d :: ds, IsDigit c := by
    intro c hc
    rcases List.mem_cons.mp hc with h2 | h2
    · rw [h2]; exact hd
    · exact hds c h2
  intro hcon
  rw [hbuf] at hcon
  have := (getD_shape s 99 (d :: ds) hall (by simp only [List.length_cons]; omega)).mp hcon
  omega

/-! ## The adder on operands of at most 99 digits -/

theorem bn_add_run (x y : Bignum) (hx : x.WF) (hy : y.WF)
    (hx0 : x.buf.getD 0 0 = 0) (hy0 : y.buf.getD 0 0 = 0) :
    ∃ (m : Nat) (c1 : Int) (done1 : List Int),
      m < 99 ∧ m + 1 + done1.length = 100 ∧ (c1 = 0 ∨ c1 = 1) ∧
      (∀ d ∈ done1, IsDigit d) ∧
      c1 * 10 ^ done1.length + cellsVal done1 = x.value + y.value ∧
      x.buf.getD m 0 = 0 ∧ y.buf.getD m 0 = 0 ∧
      (x.buf.getD (m + 1) 0 ≠ 0 ∨ y.buf.getD (m + 1) 0 ≠ 0) ∧
      bn_add x y = .ok ⟨List.replicate m 0 ++ (if c1 = 0 then 0 else 49) :: done1⟩ := by
  obtain ⟨m, c1, done1, hrun, hm, hlen1, hc1, hdone1, hval1, hxm, hym, hlast⟩ :=
    while_spec x y hx.cellsOK hy.cellsOK hx0 hy0 99 0 [] (by simp) (by simp) (by simp)
      (by
        rw [List.drop_of_length_le (by rw [hx.1]; simp [BUFLEN]),
          List.drop_of_length_le (by rw [hy.1]; simp [BUFLEN])]
        simp [cellsVal])
  have hm99 : m ≠ 99 := by
    intro hcon
    rw [hcon] at hxm
    exact hx.last_occupied hxm
  have hmlt : m < 99 := by omega
  refine ⟨m, c1, done1, hmlt, hlen1, hc1, hdone1, ?_, hxm, hym, hlast hmlt, ?_⟩
  · rw [hval1, cellsVal_drop_of_sentinel hx m (by omega) hxm,
      cellsVal_drop_of_sentinel hy m (by omega) hym]
  · have hload : (⟨List.replicate m 0 ++ c1 :: done1⟩ : Bignum).load (m : Int) = .ok c1 := by
      rw [load_in _ m (by omega)]
      have := getD_split (List.replicate m 0) done1 c1
      rw [List.length_replicate] at this
      rw [this]
    have hstore : ∀ v, (⟨List.replicate m 0 ++ c1 :: done1⟩ : Bignum).store (m : Int) v =
        .ok ⟨List.replicate m 0 ++ toChar v :: done1⟩ := by
      intro v
      rw [store_in _ m v (by omega)]
      have := set_split (List.replicate m 0) done1 c1 (toChar v)
      rw [List.length_replicate] at this
      rw [this]
    have hrun2 : bn_add_while x y (BUFLEN + 1) ((BUFLEN : Int) - 1) ⟨List.replicate 100 0⟩ =
        .ok ((m : Int), ⟨List.replicate m 0 ++ c1 :: done1⟩) := by
      have : (List.replicate 100 (0 : Int)) = List.replicate 99 0 ++ 0 :: [] := by
        rw [List.replicate_succ']
      rw [this]
      exact hrun
    simp only [bn_add, bind, Except.bind, hrun2, hload, hstore, pure, Except.pure, INT2ASC]
    rcases hc1 with h | h
    · simp [h]
    · simp [h, toChar]

theorem bn_add_spec (x y : Bignum) (hx : x.WF) (hy : y.WF)
    (hx0 : x.buf.getD 0 0 = 0) (hy0 : y.buf.getD 0 0 = 0) :
    ∃ d, bn_add x y = .ok d ∧ d.WF ∧ d.value = x.value + y.value := by
  obtain ⟨m, c1, done1, hm, hlen, hc1, hdone, hval, hxm, hym, hlast, hres⟩ :=
    bn_add_run x y hx hy hx0 hy0
  refine ⟨_, hres, ?_⟩
  rcases hc1 with h | h
  · -- no carry out of the most significant active position
    rw [h] at hval ⊢
    simp only [if_true, zero_mul, zero_add] at hval ⊢
    cases hd1 : done1 with
    | nil => rw [hd1] at hlen; simp at hlen; omega
    | cons d ds =>
      rw [hd1] at hval hlen hdone
      have hrep : List.replicate m (0 : Int) ++ 0 :: d :: ds =
          List.replicate (m + 1) 0 ++ d :: ds := by
        rw [List.replicate_succ', List.append_assoc]; rfl
      rw [hrep]
      have hdd : IsDigit d := hdone d (List.mem_cons_self _ _)
      have hds : ∀ c ∈ ds, IsDigit c := fun c hc => hdone c (List.mem_cons_of_mem _ hc)
      have hd0 : d ≠ 0 := by unfold IsDigit at hdd; omega
      have hlead : d = 48 → ds = [] := by
        intro h48
        by_contra hne
        have hlen2 : 1 ≤ ds.length := by
          cases ds with
          | nil => exact absurd rfl hne
          | cons a t => simp
        have hsmall : cellsVal (d :: ds) < 10 ^ ds.length := by
          rw [cellsVal_cons, h48]
          have := cellsVal_lt ds hds
          simpa [digit_at] using this
        have hbig : (10 : Int) ^ ds.length ≤ x.value + y.value := by
          simp only [List.length_cons] at hlen
          have he : ds.length = 99 - (m + 1) := by omega
          rcases hlast with h1 | h1
          · have := value_ge_of_occupied hx (m + 1) (by omega) h1
            have := hy.value_nonneg
            rw [he]; linarith
          · have := value_ge_of_occupied hy (m + 1) (by omega) h1
            have := hx.value_nonneg
            rw [he]; linarith
        linarith
      refine ⟨WF_of_shape (m + 1) d ds (by simp only [List.length_cons] at hlen; omega)
        hdd hds hlead, ?_⟩
      have hwf := WF_of_shape (m + 1) d ds (by simp only [List.length_cons] at hlen; omega)
        hdd hds hlead
      rw [hwf.value_eq, occupied_shape _ _ _ hd0]
      exact hval
  · -- a carry remains and becomes the new leading digit
    rw [h] at hval ⊢
    simp only [one_ne_zero, if_false, one_mul] at hval ⊢
    have hwf := WF_of_shape m 49 done1 (by omega) (by unfold IsDigit; omega) hdone
      (by intro hcon; omega)
    refine ⟨hwf, ?_⟩
    rw [hwf.value_eq, occupied_shape _ _ _ (by omega), cellsVal_cons]
    simpa [digit_at] using hval

/-! ## The sequence engine -/

theorem bn_assgin_eq (b : Bignum) (h : b.buf.length = 100) : bn_assgin b = b := by
  cases b with
  | mk buf =>
    simp only [bn_assgin, Bignum.mk.injEq]
    simp only at h
    apply List.ext_getElem
    · simp [h]
    · intro n h1 h2
      simp only [List.getElem_map, List.getElem_range]
      exact List.getD_eq_getElem _ _ h2

theorem fib_sequence_of_table (j : Nat) (f : List Bignum) (h : fib_table j = .ok f) :
    fib_sequence (j : Int) = .ok (bn_assgin (f.getD j ⟨[]⟩)) := by
  unfold fib_sequence
  rw [if_neg (by omega)]
  simp only [Int.toNat_ofNat, h, bind, Except.bind, pure, Except.pure]

theorem fib_table_succ (k : Nat) (hk : 1 ≤ k) :
    fib_table (k + 1) = (fib_table k).bind fun f => fib_step f (k + 1) := by
  unfold fib_table
  rw [List.range_succ, List.drop_append_of_le_length (by rw [List.length_range]; omega),
    List.foldlM_append]
  simp only [List.foldlM_cons, List.foldlM_nil, bind, Except.bind, pure, Except.pure]
  cases List.foldlM fib_step [bn_zero, bn_one] (List.drop 2 (List.range (k + 1))) with
  | error e => rfl
  | ok f =>
    simp only
    cases fib_step f (k + 1) <;> rfl

theorem no_cell0_of_lt {b : Bignum} (h : b.WF) (hv : b.value < 10 ^ 99) :
    b.buf.getD 0 0 = 0 := by
  by_contra hcon
  have := value_ge_of_occupied h 0 (by omega) hcon
  simp only [Nat.sub_zero] at this
  linarith

/-- The table of `fib_sequence(k)`, for `k ≥ 1` with `F(k)` of at most 99
digits: it is computed without fault, each entry is well formed, stands for the
Fibonacci number of its index, is what `fib_sequence` returns at that index,
and is the sum the adder gives for the two entries before it. -/
theorem fib_table_spec (k : Nat) (hfib : Nat.fib (k + 1) < 10 ^ 99) :
    ∃ f : List Bignum, fib_table (k + 1) = .ok f ∧ f.length = k + 2 ∧
      (∀ j, j ≤ k + 1 → (f.getD j ⟨[]⟩).WF ∧ (f.getD j ⟨[]⟩).value = (Nat.fib j : Int) ∧
        fib_sequence (j : Int) = .ok (f.getD j ⟨[]⟩)) ∧
      (∀ j, j + 2 ≤ k + 1 →
        bn_add (f.getD (j + 1) ⟨[]⟩) (f.getD j ⟨[]⟩) = .ok (f.getD (j + 2) ⟨[]⟩)) := by
  induction k with
  | zero =>
    refine ⟨[bn_zero, bn_one], rfl, rfl, ?_, ?_⟩
    · intro j hj
      have h0 : fib_table 0 = .ok [bn_zero, bn_one] := rfl
      have h1 : fib_table 1 = .ok [bn_zero, bn_one] := rfl
      interval_cases j
      · refine ⟨by decide, by decide, ?_⟩
        rw [fib_sequence_of_table 0 _ h0]
        exact congrArg Except.ok (bn_assgin_eq _ (by simp [bn_zero]))
      · refine ⟨by decide, by decide, ?_⟩
        rw [fib_sequence_of_table 1 _ h1]
        exact congrArg Except.ok (bn_assgin_eq _ (by simp [bn_one]))
    · intro j hj
      omega
  | succ k ih =>
    have hmono : Nat.fib (k + 1) ≤ Nat.fib (k + 1 + 1) := Nat.fib_mono (by omega)
    obtain ⟨f, htab, hlen, hent, hrec⟩ := ih (by omega)
    obtain ⟨hwf1, hval1, hseq1⟩ := hent (k + 1) (by omega)
    obtain ⟨hwf0, hval0, hseq0⟩ := hent k (by omega)
    have hfibInt : ((Nat.fib (k + 2) : Nat) : Int) < 10 ^ 99 := by exact_mod_cast hfib
    have hrecfib : (Nat.fib (k + 2) : Int) = Nat.fib k + Nat.fib (k + 1) := by
      exact_mod_cast Nat.fib_add_two
    have hn0 : (0 : Int) ≤ Nat.fib k := Int.ofNat_nonneg _
    have hn1 : (0 : Int) ≤ Nat.fib (k + 1) := Int.ofNat_nonneg _
    obtain ⟨d, hadd, hdwf, hdval⟩ := bn_add_spec _ _ hwf1 hwf0
      (no_cell0_of_lt hwf1 (by rw [hval1]; linarith))
      (no_cell0_of_lt hwf0 (by rw [hval0]; linarith))
    have hstep : fib_table (k + 1 + 1) = .ok (f ++ [d]) := by
      rw [fib_table_succ (k + 1) (by omega), htab]
      simp only [Except.bind, fib_step, bind, pure, Except.pure]
      rw [show k + 1 + 1 - 1 = k + 1 from rfl, show k + 1 + 1 - 2 = k from rfl, hadd]
    have hold : ∀ j, j ≤ k + 1 → (f ++ [d]).getD j ⟨[]⟩ = f.getD j ⟨[]⟩ := by
      intro j hj
      rw [List.getD_append _ _ _ _ (by omega)]
    have hnew : (f ++ [d]).getD (k + 2) ⟨[]⟩ = d := by
      rw [List.getD_append_right _ _ _ _ (by omega), hlen]
      simp
    refine ⟨f ++ [d], hstep, by simp [hlen], ?_, ?_⟩
    · intro j hj
      rcases Nat.lt_or_ge j (k + 2) with h | h
      · rw [hold j (by omega)]
        exact hent j (by omega)
      · have hj2 : j = k + 2 := by omega
        rw [hj2, hnew]
        refine ⟨hdwf, ?_, ?_⟩
        · rw [hdval, hval1, hval0, hrecfib]; ring
        · rw [fib_sequence_of_table (k + 2) _ hstep, hnew, bn_assgin_eq d hdwf.1]
    · intro j hj
      rcases Nat.lt_or_ge (j + 2) (k + 2) with h | h
      · rw [hold j (by omega), hold (j + 1) (by omega), hold (j + 2) (by omega)]
        exact hrec j (by omega)
      · have hj2 : j = k := by omega
        rw [hj2, hnew, hold k (by omega), hold (k + 1) (by omega)]
        exact hadd

theorem fib_100_lt : Nat.fib 100 < 10 ^ 99 := by norm_num

/-! ## Symmetry of the adder -/

theorem load_out (b : Bignum) (idx : Int) (h : ¬ (0 ≤ idx ∧ idx < 100)) :
    b.load idx = .error (.outOfBounds idx) := by
  unfold Bignum.load BUFLEN
  rw [if_neg (by simpa using h)]

theorem getD_set_self (l : List Int) (n : Nat) (v : Int) (h : n < l.length) :
    (l.set n v).getD n 0 = v := by
  rw [List.getD_eq_getElem _ _ (by rw [List.length_set]; exact h)]
  exact List.getElem_set_self _

theorem toChar_add_comm (d a b : Int) :
    toChar (toChar (d + a) + b) = toChar (toChar (d + b) + a) := by
  unfold toChar; omega

theorem digit_comm (x y dest : Bignum) (idx : Int) :
    (bn_add_digit x dest idx).bind (fun d => bn_add_digit y d idx) =
      (bn_add_digit y dest idx).bind (fun d => bn_add_digit x d idx) := by
  by_cases hb : 0 ≤ idx ∧ idx < 100
  · obtain ⟨n, rfl⟩ := Int.eq_ofNat_of_zero_le hb.1
    have hn : n < 100 := by omega
    simp only [bn_add_digit, bind, Except.bind, pure, Except.pure, load_in _ _ hn,
      store_in _ _ _ hn]
    by_cases h1 : x.buf.getD n 0 = 0 <;> by_cases h2 : y.buf.getD n 0 = 0 <;>
      simp only [h1, h2, ne_eq, not_true_eq_false, not_false_eq_true, if_true, if_false,
        load_in _ _ hn, store_in _ _ _ hn]
    by_cases hl : n < dest.buf.length
    · rw [getD_set_self _ _ _ hl, getD_set_self _ _ _ hl, List.set_set, List.set_set,
        toChar_add_comm]
    · have hno : ∀ v, dest.buf.set n v = dest.buf :=
        fun v => List.set_eq_of_length_le (by omega)
      simp only [hno]
  · simp only [bn_add_digit, bind, Except.bind, load_out _ _ hb]

theorem body_comm (x y dest : Bignum) (idx : Int) :
    bn_add_body x y dest idx = bn_add_body y x dest idx := by
  have h := digit_comm x y dest idx
  unfold bn_add_body
  simp only [bind, Except.bind] at h ⊢
  cases hx : bn_add_digit x dest idx with
  | error e =>
    rw [hx] at h
    simp only at h ⊢
    cases hy : bn_add_digit y dest idx with
    | error e2 => rw [hy] at h; simp only at h ⊢; exact h
    | ok d2 =>
      rw [hy] at h; simp only at h ⊢
      rw [← h]
  | ok d1 =>
    rw [hx] at h
    simp only at h ⊢
    cases hy : bn_add_digit y dest idx with
    | error e2 => rw [hy] at h; simp only at h ⊢; rw [h]
    | ok d2 => rw [hy] at h; simp only at h ⊢; rw [h]

theorem cond_comm (x y : Bignum) (idx : Int) : bn_add_cond x y idx = bn_add_cond y x idx := by
  by_cases hb : 0 ≤ idx ∧ idx < 100
  · obtain ⟨n, rfl⟩ := Int.eq_ofNat_of_zero_le hb.1
    have hn : n < 100 := by omega
    rw [cond_spec x y n hn, cond_spec y x n hn]
    simp only [or_comm]
  · simp only [bn_add_cond, bind, Except.bind, load_out _ _ hb]

theorem while_comm (x y : Bignum) (fuel : Nat) :
    ∀ (idx : Int) (dest : Bignum), bn_add_while x y fuel idx dest = bn_add_while y x fuel idx dest := by
  induction fuel with
  | zero => intro idx dest; rfl
  | succ k ih =>
    intro idx dest
    simp only [bn_add_while, cond_comm x y idx, body_comm x y dest idx, ih]

/-- The two orders of the operands have the same outcome, whatever the
buffers: the same 100-cell buffer, or a stop at the same out-of-bounds access. -/
theorem bn_add_comm (x y : Bignum) : bn_add x y = bn_add y x := by
  simp only [bn_add, while_comm x y]

/-- For well-formed operands of at most 99 digits each (cell 0 is a sentinel),
both orders of the operands return a buffer, and it is the same well-formed
buffer. -/
theorem bn_add_comm_short (x y : Bignum) (hx : x.WF) (hy : y.WF)
    (hx0 : x.buf.getD 0 0 = 0) (hy0 : y.buf.getD 0 0 = 0) :
    ∃ d, bn_add x y = .ok d ∧ bn_add y x = .ok d ∧ d.WF ∧ d.value = x.value + y.value := by
  obtain ⟨d, hadd, hwf, hval⟩ := bn_add_spec x y hx hy hx0 hy0
  exact ⟨d, hadd, by rw [← bn_add_comm x y]; exact hadd, hwf, hval⟩

/-! ## The step bound of the loop model is never reached -/

theorem load_fault (b : Bignum) (idx : Int) (e : Fault) (h : b.load idx = .error e) :
    e = .outOfBounds idx := by
  unfold Bignum.load at h
  split at h
  · exact absurd h (by simp)
  · exact (Except.error.inj h).symm

theorem store_fault (b : Bignum) (idx v : Int) (e : Fault) (h : b.store idx v = .error e) :
    e = .outOfBounds idx := by
  unfold Bignum.store at h
  split at h
  · exact absurd h (by simp)
  · exact (Except.error.inj h).symm

theorem digit_fault (b dest : Bignum) (idx : Int) (e : Fault)
    (h : bn_add_digit b dest idx = .error e) : e ≠ .outOfFuel := by
  unfold bn_add_digit at h
  simp only [bind, Except.bind, pure, Except.pure] at h
  cases h1 : b.load idx with
  | error e1 =>
    rw [h1] at h
    rw [← Except.error.inj h, load_fault _ _ _ h1]; simp
  | ok bc =>
    rw [h1] at h
    simp only at h
    split at h
    · cases h2 : dest.load idx with
      | error e2 =>
        rw [h2] at h
        rw [← Except.error.inj h, load_fault _ _ _ h2]; simp
      | ok d =>
        rw [h2] at h
        rw [store_fault _ _ _ _ h]; simp
    · exact absurd h (by simp)

theorem carry_fault (dest : Bignum) (idx : Int) (e : Fault)
    (h : bn_add_carry dest idx = .error e) : e ≠ .outOfFuel := by
  unfold bn_add_carry at h
  simp only [bind, Except.bind, pure, Except.pure] at h
  cases h1 : dest.load idx with
  | error e1 =>
    rw [h1] at h
    rw [← Except.error.inj h, load_fault _ _ _ h1]; simp
  | ok d =>
    rw [h1] at h
    simp only at h
    split at h
    · cases h2 : dest.store idx (d - 10) with
      | error e2 =>
        rw [h2] at h
        rw [← Except.error.inj h, store_fault _ _ _ _ h2]; simp
      | ok d2 =>
        rw [h2] at h
        simp only at h
        cases h3 : d2.store (idx - 1) 1 with
        | error e3 =>
          rw [h3] at h
          rw [← Except.error.inj h, store_fault _ _ _ _ h3]; simp
        | ok d3 =>
          rw [h3] at h
          simp only at h
          cases h4 : d3.load idx with
          | error e4 =>
            rw [h4] at h
            rw [← Except.error.inj h, load_fault _ _ _ h4]; simp
          | ok d4 =>
            rw [h4] at h
            rw [store_fault _ _ _ _ h]; simp
    · rw [store_fault _ _ _ _ h]; simp

theorem body_fault (x y dest : Bignum) (idx : Int) (e : Fault)
    (h : bn_add_body x y dest idx = .error e) : e ≠ .outOfFuel := by
  unfold bn_add_body at h
  simp only [bind, Except.bind] at h
  cases h1 : bn_add_digit x dest idx with
  | error e1 =>
    rw [h1] at h
    rw [← Except.error.inj h]; exact digit_fault _ _ _ _ h1
  | ok d1 =>
    rw [h1] at h
    simp only at h
    cases h2 : bn_add_digit y d1 idx with
    | error e2 =>
      rw [h2] at h
      rw [← Except.error.inj h]; exact digit_fault _ _ _ _ h2
    | ok d2 =>
      rw [h2] at h
      exact carry_fault _ _ _ h

theorem while_fuel (x y : Bignum) (fuel : Nat) :
    ∀ (idx : Int) (dest : Bignum), idx + 2 ≤ fuel → 1 ≤ fuel →
      bn_add_while x y fuel idx dest ≠ .error .outOfFuel := by
  induction fuel with
  | zero => intro idx dest h1 h2; omega
  | succ k ih =>
    intro idx dest h1 h2 hcon
    simp only [bn_add_while, bind, Except.bind, pure, Except.pure] at hcon
    by_cases hb : 0 ≤ idx ∧ idx < 100
    · obtain ⟨n, rfl⟩ := Int.eq_ofNat_of_zero_le hb.1
      rw [cond_spec x y n (by omega)] at hcon
      simp only at hcon
      split at hcon
      · cases hbody : bn_add_body x y dest (n : Int) with
        | error e =>
          rw [hbody] at hcon
          exact body_fault _ _ _ _ _ hbody (Except.error.inj hcon)
        | ok d =>
          rw [hbody] at hcon
          exact ih ((n : Int) - 1) d (by push_cast at h1 ⊢; omega) (by omega) hcon
      · exact absurd hcon (by simp)
    · have : bn_add_cond x y idx = .error (.outOfBounds idx) := by
        simp only [bn_add_cond, bind, Except.bind, load_out _ _ hb]
      rw [this] at hcon
      exact absurd (Except.error.inj hcon) (by simp)

/-- The step bound `BUFLEN + 1` of the adder loop is never exhausted: whatever
the operands, `bn_add` returns a buffer or stops at an out-of-bounds access. -/
theorem bn_add_fuel (x y : Bignum) : bn_add x y ≠ .error .outOfFuel := by
  intro hcon
  unfold bn_add at hcon
  simp only [bind, Except.bind, pure, Except.pure] at hcon
  cases hw : bn_add_while x y (BUFLEN + 1) ((BUFLEN : Int) - 1) ⟨List.replicate 100 0⟩ with
  | error e =>
    rw [hw] at hcon
    rw [Except.error.inj hcon] at hw
    exact while_fuel x y _ _ _ (by simp [BUFLEN]) (by simp) hw
  | ok r =>
    rw [hw] at hcon
    simp only at hcon
    cases hl : r.2.load r.1 with
    | error e =>
      rw [hl] at hcon
      have := load_fault _ _ _ hl
      rw [Except.error.inj hcon] at this
      exact absurd this (by simp)
    | ok d =>
      rw [hl] at hcon
      simp only at hcon
      split at hcon
      · have := store_fault _ _ _ _ hcon
        exact absurd this (by simp)
      · exact absurd hcon (by simp)

/-! ## The renderer -/

theorem fib_read_start_spec (n : Bignum) (s : Nat) (hs : s < 100)
    (hzero : ∀ i, i < s → n.buf.getD i 0 = 0) (hocc : n.buf.getD s 0 ≠ 0) :
    ∀ (fuel start : Nat), start ≤ s → s ≤ start + fuel → fib_read_start n fuel start = s := by
  intro fuel
  induction fuel with
  | zero =>
    intro start h1 h2
    simp only [fib_read_start]
    omega
  | succ k ih =>
    intro start h1 h2
    simp only [fib_read_start, BUFLEN]
    rcases Nat.lt_or_ge start s with h | h
    · rw [if_pos ⟨by omega, hzero start h⟩]
      exact ih (start + 1) (by omega) (by omega)
    · have hst : start = s := by omega
      rw [hst, if_neg (fun hcon => hocc hcon.2)]

theorem map_getD_range' (l : List Int) (s : Nat) (hs : s ≤ l.length) :
    (List.range' s (l.length - s)).map (fun i => l.getD i 0) = l.drop s := by
  apply List.ext_getElem
  · simp
  · intro i h1 h2
    simp only [List.length_map, List.length_range'] at h1
    rw [List.getElem_map, List.getElem_range', List.getElem_drop,
      List.getD_eq_getElem _ _ (by omega)]
    simp

theorem render_shape (s : Nat) (d : Int) (ds : List Int) (hlen : s + (ds.length + 1) = 100)
    (hd : d ≠ 0) :
    render ⟨List.replicate s 0 ++ d :: ds⟩ = (d :: ds, (100 : Int) - s) := by
  have hstart : fib_read_start ⟨List.replicate s 0 ++ d :: ds⟩ BUFLEN 0 = s := by
    apply fib_read_start_spec _ s (by omega)
    · intro i hi
      exact getD_replicate_zero s i _ hi
    · have := getD_split (List.replicate s 0) ds d
      rw [List.length_replicate] at this
      simp only [this]
      exact hd
    · omega
    · simp only [BUFLEN]; omega
  have hl : (List.replicate s (0 : Int) ++ d :: ds).length = 100 := by
    simp only [List.length_append, List.length_replicate, List.length_cons]; omega
  have hmap := map_getD_range' (List.replicate s 0 ++ d :: ds) s (by omega)
  rw [hl] at hmap
  simp only [BUFLEN] at hstart
  simp only [render, BUFLEN, hstart]
  rw [hmap, List.drop_append_of_le_length (by rw [List.length_replicate]),
    List.drop_replicate]
  simp

theorem first_shape (s : Nat) (d : Int) (ds : List Int) (hd : d ≠ 0) :
    (⟨List.replicate s 0 ++ d :: ds⟩ : Bignum).first = s := by
  unfold Bignum.first
  induction s with
  | zero => simp [List.takeWhile_cons, hd]
  | succ k ih =>
    rw [List.replicate_succ, List.cons_append, List.takeWhile_cons]
    simpa using ih

theorem render_of_WF {b : Bignum} (h : b.WF) :
    render b = (b.occupied, (100 : Int) - b.first) ∧ b.first + b.occupied.length = 100 ∧
      b.occupied = b.buf.drop b.first ∧ b.buf.getD b.first 0 ≠ 0 ∧
      ∀ i, i < b.first → b.buf.getD i 0 = 0 := by
  obtain ⟨s, d, ds, hbuf, hlen, hocc, hd, hds, -⟩ := h.shape
  have hd0 : d ≠ 0 := by unfold IsDigit at hd; omega
  have hb : b = ⟨List.replicate s 0 ++ d :: ds⟩ := by
    cases b; simp only [Bignum.mk.injEq]; exact hbuf
  have hfirst : b.first = s := by rw [hb]; exact first_shape s d ds hd0
  rw [hfirst, hocc]
  refine ⟨?_, by simp only [List.length_cons]; omega, ?_, ?_, ?_⟩
  · rw [hb]; exact render_shape s d ds hlen hd0
  · rw [hbuf, List.drop_append_of_le_length (by rw [List.length_replicate]),
      List.drop_replicate]
    simp
  · rw [hbuf]
    have := getD_split (List.replicate s 0) ds d
    rw [List.length_replicate] at this
    rw [this]; exact hd0
  · intro i hi
    rw [hbuf]
    exact getD_replicate_zero s i _ hi

theorem fib_sequence_spec (n : Nat) (hn : n ≤ 100) :
    ∃ b, fib_sequence (n : Int) = .ok b ∧ b.WF ∧ b.value = (Nat.fib n : Int) := by
  cases n with
  | zero =>
    obtain ⟨f, -, -, hent, -⟩ := fib_table_spec 0 (by norm_num)
    obtain ⟨h1, h2, h3⟩ := hent 0 (by omega)
    exact ⟨_, h3, h1, h2⟩
  | succ m =>
    have hmono : Nat.fib (m + 1) ≤ Nat.fib 100 := Nat.fib_mono hn
    obtain ⟨f, -, -, hent, -⟩ := fib_table_spec m (lt_of_le_of_lt hmono fib_100_lt)
    obtain ⟨h1, h2, h3⟩ := hent (m + 1) (by omega)
    exact ⟨_, h3, h1, h2⟩

/-! ## Seek, lock and gateway -/

theorem lseek_range (file : File) (offset orig : Int) :
    0 ≤ (fib_device_lseek file offset orig).2 ∧ (fib_device_lseek file offset orig).2 ≤ 100 ∧
      (fib_device_lseek file offset orig).1.f_pos = (fib_device_lseek file offset orig).2 := by
  simp only [fib_device_lseek, MAX_LENGTH]
  refine ⟨?_, ?_, trivial⟩ <;> split_ifs <;> omega

theorem run_append (s : Gateway) (ops : List Op) (op : Op) :
    s.run (ops ++ [op]) = ((s.run ops).step op).1 := by
  simp only [Gateway.run, List.foldl_append, List.foldl_cons, List.foldl_nil]

theorem step_pos_range (s : Gateway) (op : Op)
    (h : 0 ≤ s.file.f_pos ∧ s.file.f_pos ≤ 100) :
    0 ≤ (s.step op).1.file.f_pos ∧ (s.step op).1.file.f_pos ≤ 100 := by
  cases op with
  | seek offset orig =>
    have := lseek_range s.file offset orig
    simp only [Gateway.step]
    rw [this.2.2]
    exact ⟨this.1, this.2.1⟩
  | read => exact h
  | write buf size => exact h

theorem run_pos_range (ops : List Op) :
    0 ≤ (Gateway.initial.run ops).file.f_pos ∧ (Gateway.initial.run ops).file.f_pos ≤ 100 := by
  induction ops using List.reverseRecOn with
  | nil => exact ⟨by decide, by decide⟩
  | append_singleton l op ih =>
    rw [run_append]
    exact step_pos_range _ op ih

theorem run_writes (s : Gateway) (ws : List (List Int × Int)) :
    s.run (ws.map fun w => Op.write w.1 w.2) = s := by
  induction ws with
  | nil => rfl
  | cons w t ih =>
    simp only [List.map_cons, Gateway.run, List.foldl_cons, Gateway.step]
    exact ih

/-! ## Lengths -/

theorem load_ok_bounds (b : Bignum) (idx v : Int) (h : b.load idx = .ok v) :
    0 ≤ idx ∧ idx < 100 := by
  by_contra hcon
  rw [load_out b idx hcon] at h
  exact absurd h (by simp)

theorem store_ok_bounds (b d : Bignum) (idx v : Int) (h : b.store idx v = .ok d) :
    0 ≤ idx ∧ idx < 100 := by
  by_contra hcon
  unfold Bignum.store BUFLEN at h
  rw [if_neg (by simpa using hcon)] at h
  exact absurd h (by simp)

theorem Bignum.WF.sentinel_iff {b : Bignum} (h : b.WF) (i : Nat) (hi : i < 100) :
    b.buf.getD i 0 = 0 ↔ i < b.first := by
  obtain ⟨s, d, ds, hbuf, hlen, hocc, hd, hds, -⟩ := h.shape
  have hall : ∀ c ∈ d :: ds, IsDigit c := by
    intro c hc
    rcases List.mem_cons.mp hc with h2 | h2
    · rw [h2]; exact hd
    · exact hds c h2
  have hd0 : d ≠ 0 := by unfold IsDigit at hd; omega
  have hb : b = ⟨List.replicate s 0 ++ d :: ds⟩ := by
    cases b; simp only [Bignum.mk.injEq]; exact hbuf
  have hfirst : b.first = s := by rw [hb]; exact first_shape s d ds hd0
  rw [hfirst, hbuf]
  exact getD_shape s i (d :: ds) hall (by simp only [List.length_cons]; omega)

theorem Bignum.WF.occupied_le_of_value_lt {b : Bignum} (h : b.WF) (k : Nat) (hk : 1 ≤ k)
    (hv : b.value < 10 ^ k) : b.occupied.length ≤ k := by
  by_contra hcon
  obtain ⟨-, hlen, -, hne, -⟩ := render_of_WF h
  have hge := value_ge_of_occupied h b.first (by omega) hne
  have hpow : (10 : Int) ^ k ≤ 10 ^ (99 - b.first) :=
    pow_le_pow_right₀ (by norm_num) (by omega)
  linarith

theorem fib_100_lt_21 : Nat.fib 100 < 10 ^ 21 := by norm_num

theorem fib_le_21 {b : Bignum} (h : b.WF) (j : Nat) (hj : j ≤ 100)
    (hv : b.value = (Nat.fib j : Int)) : b.occupied.length ≤ 21 := by
  apply h.occupied_le_of_value_lt 21 (by omega)
  rw [hv]
  have h1 : Nat.fib j ≤ Nat.fib 100 := Nat.fib_mono hj
  have h2 : Nat.fib j < 10 ^ 21 := lt_of_le_of_lt h1 fib_100_lt_21
  exact_mod_cast h2

theorem Bignum.WF.cell0_of_short {b : Bignum} (h : b.WF) (hlen : b.occupied.length ≤ 99) :
    b.buf.getD 0 0 = 0 := by
  obtain ⟨-, hl, -, -, hz⟩ := render_of_WF h
  exact hz 0 (by omega)

/-! ## The claims -/

set_option maxRecDepth 100000 in
/-- C1 (adder correctness), at an operand that fills the buffer.  The operands
`10^99` (100 digits) and `0` are well formed and their sum `10^99` has 100
digits, yet `bn_add` does not leave the sum in `dest`: after position 0 the
loop condition reads `x->buf[-1]`, outside the buffer. -/
theorem bn_add_exact_fails_at_full_width :
    (ofDigits (49 :: List.replicate 99 48)).WF ∧ bn_zero.WF ∧
      (ofDigits (49 :: List.replicate 99 48)).value + bn_zero.value = 10 ^ 99 ∧
      bn_add (ofDigits (49 :: List.replicate 99 48)) bn_zero =
        .error (.outOfBounds (-1)) := by
  decide

/-- C3 (recurrence law).  For every `n` in `[2, 100]`, `fib_sequence(n - 1)`
and `fib_sequence(n - 2)` return buffers `a` and `b`, `bn_add` on them returns
a buffer `c` of 100 cells, and `fib_sequence(n)` returns that same `c`. -/
theorem fib_sequence_recurrence (n : Nat) (h2 : 2 ≤ n) (h100 : n ≤ 100) :
    ∃ a b c : Bignum, fib_sequence ((n : Int) - 1) = .ok a ∧
      fib_sequence ((n : Int) - 2) = .ok b ∧ bn_add a b = .ok c ∧
      fib_sequence (n : Int) = .ok c ∧ c.buf.length = 100 := by
  obtain ⟨j, rfl⟩ : ∃ j, n = j + 2 := ⟨n - 2, by omega⟩
  have hmono : Nat.fib (j + 1 + 1) ≤ Nat.fib 100 := Nat.fib_mono h100
  obtain ⟨f, -, -, hent, hrec⟩ := fib_table_spec (j + 1) (lt_of_le_of_lt hmono fib_100_lt)
  obtain ⟨-, -, hs0⟩ := hent j (by omega)
  obtain ⟨-, -, hs1⟩ := hent (j + 1) (by omega)
  obtain ⟨hwf2, -, hs2⟩ := hent (j + 2) (by omega)
  have e1 : ((j + 2 : Nat) : Int) - 1 = ((j + 1 : Nat) : Int) := by push_cast; ring
  have e2 : ((j + 2 : Nat) : Int) - 2 = ((j : Nat) : Int) := by push_cast; ring
  refine ⟨_, _, _, ?_, ?_, hrec j (by omega), hs2, hwf2.1⟩
  · rw [e1]; exact hs1
  · rw [e2]; exact hs0

theorem fib_sequence_recurrence_witness :
    2 ≤ 7 ∧ 7 ≤ 100 ∧ ∃ a b c : Bignum, fib_sequence (((7 : Nat) : Int) - 1) = .ok a ∧
      fib_sequence (((7 : Nat) : Int) - 2) = .ok b ∧ bn_add a b = .ok c ∧
      fib_sequence ((7 : Nat) : Int) = .ok c ∧ c.buf.length = 100 :=
  ⟨by decide, by decide, fib_sequence_recurrence 7 (by decide) (by decide)⟩

set_option maxRecDepth 100000 in
/-- C4 (known values, byte-exact).  Reading at the indices 0, 1, 2, 10 and 20
emits exactly the ASCII strings "0", "1", "1", "55" and "6765" and returns the
byte counts 1, 1, 1, 2 and 4. -/
theorem fib_read_known_values :
    fib_read 0 = .ok ([48], 1) ∧ fib_read 1 = .ok ([49], 1) ∧ fib_read 2 = .ok ([49], 1) ∧
      fib_read 10 = .ok ([53, 53], 2) ∧ fib_read 20 = .ok ([54, 55, 54, 53], 4) := by
  decide

set_option maxRecDepth 100000 in
/-- C5 (adder commutativity), at an operand that fills the buffer.  The number
made of one hundred digits `3` and the number 42 are well formed, yet `bn_add`
produces no buffer for them in either order, so there are no two buffers to be
identical: after position 0 the loop condition reads `buf[-1]`, outside the
buffer. -/
theorem bn_add_comm_fails_at_full_width :
    (ofDigits (List.replicate 100 51)).WF ∧ (ofDigits [52, 50]).WF ∧
      bn_add (ofDigits (List.replicate 100 51)) (ofDigits [52, 50]) =
        .error (.outOfBounds (-1)) ∧
      bn_add (ofDigits [52, 50]) (ofDigits (List.replicate 100 51)) =
        .error (.outOfBounds (-1)) := by
  decide

set_option maxRecDepth 100000 in
/-- C6 (adder identity), at an operand that fills the buffer.  The number made
of one hundred digits `7` is well formed and occupies all 100 cells, yet adding
the value of `bn_zero` to it yields no buffer: the loop condition reads
`buf[-1]`, outside the buffer, in either order of the operands. -/
theorem bn_add_zero_fails_at_full_width :
    (ofDigits (List.replicate 100 55)).WF ∧
      (ofDigits (List.replicate 100 55)).occupied.length = 100 ∧
      bn_add (ofDigits (List.replicate 100 55)) bn_zero = .error (.outOfBounds (-1)) ∧
      bn_add bn_zero (ofDigits (List.replicate 100 55)) = .error (.outOfBounds (-1)) := by
  decide

set_option maxRecDepth 100000 in
/-- C7 (capacity overflow), at the sum `(10^100 - 1) + 1`, which needs 101
digits.  The operands are well formed, yet `bn_add` does not complete with the
low 100 digits: the carry out of position 0 is written to `dest->buf[-1]`,
outside the buffer (the carry step at position 0 on a cell holding 10). -/
theorem bn_add_overflow_writes_out_of_bounds :
    (ofDigits (List.replicate 100 57)).WF ∧ bn_one.WF ∧
      (ofDigits (List.replicate 100 57)).value + bn_one.value = 10 ^ 100 ∧
      bn_add_carry ⟨10 :: List.replicate 99 48⟩ 0 = .error (.outOfBounds (-1)) ∧
      bn_add (ofDigits (List.replicate 100 57)) bn_one = .error (.outOfBounds (-1)) := by
  decide

set_option maxRecDepth 100000 in
/-- C8 (representation invariant), at an operand that fills the buffer.  The
operands `2 * 10^99` (100 digits) and `1` are well formed and their sum fits in
100 digits, yet `bn_add` returns no buffer, well formed or not: it stops at the
read of `x->buf[-1]`. -/
theorem bn_add_wf_fails_at_full_width :
    (ofDigits (50 :: List.replicate 99 48)).WF ∧ bn_one.WF ∧
      (ofDigits (50 :: List.replicate 99 48)).value + bn_one.value < 10 ^ 100 ∧
      bn_add (ofDigits (50 :: List.replicate 99 48)) bn_one = .error (.outOfBounds (-1)) := by
  decide

/-- C9 (renderer).  For every well-formed `bn`, with `first` the index of its
first non-sentinel cell (the cells before it are sentinels, the cell at it is
not), the read path emits the cells `first .. 99` in order, which are the
occupied cells, and returns their count `100 - first`, which is at least 1; for
the value built by `bn_zero` it emits the single byte `'0'` and returns 1. -/
theorem render_spec (bn : Bignum) (h : bn.WF) :
    render bn = (bn.buf.drop bn.first, (100 : Int) - bn.first) ∧
      bn.buf.drop bn.first = bn.occupied ∧
      (∀ i, i < bn.first → bn.buf.getD i 0 = 0) ∧ bn.buf.getD bn.first 0 ≠ 0 ∧
      ((render bn).1.length : Int) = (render bn).2 ∧ 1 ≤ (render bn).2 ∧
      render bn_zero = ([48], 1) := by
  obtain ⟨hr, hlen, hocc, hne, hzero⟩ := render_of_WF h
  have hpos : 1 ≤ bn.occupied.length := by
    have := h.2.1
    cases hoc : bn.occupied with
    | nil => exact absurd hoc this
    | cons a t => simp
  refine ⟨by rw [hr, hocc], hocc.symm, hzero, hne, ?_, ?_, ?_⟩
  · rw [hr]; simp only; omega
  · rw [hr]; simp only; omega
  · exact (render_of_WF (b := bn_zero) (by decide)).1.trans (by decide)

theorem render_spec_witness :
    (ofDigits [54, 55, 54, 53]).WF ∧
      render (ofDigits [54, 55, 54, 53]) =
        ((ofDigits [54, 55, 54, 53]).buf.drop (ofDigits [54, 55, 54, 53]).first,
          (100 : Int) - (ofDigits [54, 55, 54, 53]).first) ∧
      1 ≤ (render (ofDigits [54, 55, 54, 53])).2 :=
  ⟨by decide, (render_spec (ofDigits [54, 55, 54, 53]) (by decide)).1,
    (render_spec (ofDigits [54, 55, 54, 53]) (by decide)).2.2.2.2.2.1⟩

/-- C10 as stated fails: from the current offset 100, a RELATIVE_TO_CURRENT
seek by `2^63 - 1` has the mathematical base `2^63 + 99`, whose clamp is 100,
but the 64-bit sum wraps to a negative number and the call returns 0. -/
theorem lseek_relative_wraps_counterexample :
    (fib_device_lseek ⟨100⟩ (2 ^ 63 - 1) 1).2 = 0 ∧
      clamp (100 + (2 ^ 63 - 1)) 0 100 = 100 ∧
      (fib_device_lseek ⟨100⟩ (2 ^ 63 - 1) 1).2 ≠ clamp (100 + (2 ^ 63 - 1)) 0 100 := by
  decide

/-- C10, amended.  For every current offset in `[0, 100]` and every signed
64-bit requested offset `r`, `fib_device_lseek` returns the clamp into
`[0, 100]` of `r` (ABSOLUTE), of the 64-bit wrapped sum `current + r`
(RELATIVE_TO_CURRENT) and of the 64-bit wrapped difference `100 - r`
(FROM_END); the wrapped value is the mathematical one when `current + r`
is below `2^63`, respectively when `r` is above `-2^63 + 100`.  The three
witnesses of the claim hold. -/
theorem lseek_clamp_wrapped (cur r : Int) (hc0 : 0 ≤ cur) (hc1 : cur ≤ 100)
    (hr0 : -2 ^ 63 ≤ r) (hr1 : r < 2 ^ 63) :
    (fib_device_lseek ⟨cur⟩ r 0).2 = clamp r 0 100 ∧
      (fib_device_lseek ⟨cur⟩ r 1).2 = clamp (wrap64 (cur + r)) 0 100 ∧
      (fib_device_lseek ⟨cur⟩ r 2).2 = clamp (wrap64 (100 - r)) 0 100 ∧
      (cur + r < 2 ^ 63 → (fib_device_lseek ⟨cur⟩ r 1).2 = clamp (cur + r) 0 100) ∧
      (-2 ^ 63 + 100 < r → (fib_device_lseek ⟨cur⟩ r 2).2 = clamp (100 - r) 0 100) ∧
      (fib_device_lseek ⟨cur⟩ 0 2).2 = 100 ∧ (fib_device_lseek ⟨cur⟩ (-5) 0).2 = 0 ∧
      (fib_device_lseek ⟨cur⟩ 150 0).2 = 100 := by
  have hclamp : ∀ v : Int, (if (if v > 100 then 100 else v) < 0 then 0
      else (if v > 100 then 100 else v)) = clamp v 0 100 := by
    intro v
    unfold clamp
    split_ifs <;> omega
  have h0 : (fib_device_lseek ⟨cur⟩ r 0).2 = clamp r 0 100 := by
    simp only [fib_device_lseek, MAX_LENGTH, if_true]
    exact hclamp r
  have h1 : (fib_device_lseek ⟨cur⟩ r 1).2 = clamp (wrap64 (cur + r)) 0 100 := by
    simp only [fib_device_lseek, MAX_LENGTH, one_ne_zero, if_false, if_true]
    exact hclamp _
  have h2 : (fib_device_lseek ⟨cur⟩ r 2).2 = clamp (wrap64 (100 - r)) 0 100 := by
    simp only [fib_device_lseek, MAX_LENGTH, OfNat.ofNat_ne_zero, OfNat.ofNat_ne_one,
      if_false, if_true]
    exact hclamp _
  refine ⟨h0, h1, h2, ?_, ?_, ?_, ?_, ?_⟩
  · intro hlt
    rw [h1]
    have : wrap64 (cur + r) = cur + r := by unfold wrap64; omega
    rw [this]
  · intro hgt
    rw [h2]
    have : wrap64 (100 - r) = 100 - r := by unfold wrap64; omega
    rw [this]
  · simp only [fib_device_lseek, MAX_LENGTH, OfNat.ofNat_ne_zero, OfNat.ofNat_ne_one,
      if_false, if_true]
    decide
  · simp only [fib_device_lseek, MAX_LENGTH, if_true]
    decide
  · simp only [fib_device_lseek, MAX_LENGTH, if_true]
    decide

theorem lseek_clamp_wrapped_witness :
    (0 : Int) ≤ 40 ∧ (40 : Int) ≤ 100 ∧ (-2 ^ 63 : Int) ≤ -7 ∧ (-7 : Int) < 2 ^ 63 ∧
      (fib_device_lseek ⟨40⟩ (-7) 1).2 = clamp (wrap64 (40 + -7)) 0 100 ∧
      (fib_device_lseek ⟨40⟩ (-7) 2).2 = clamp (wrap64 (100 - -7)) 0 100 :=
  ⟨by decide, by decide, by decide, by decide,
    (lseek_clamp_wrapped 40 (-7) (by decide) (by decide) (by decide) (by decide)).2.1,
    (lseek_clamp_wrapped 40 (-7) (by decide) (by decide) (by decide) (by decide)).2.2.1⟩

/-- C11 (seek result is clamped and stored).  For every value of `orig`, every
requested offset and every current position (in particular all signed 64-bit
ones, the sums being taken with 64-bit wraparound), the value returned by
`fib_device_lseek` lies in `[0, 100]` and the file position stored by the call
is the returned value. -/
theorem lseek_clamped_and_stored (file : File) (offset orig : Int) :
    0 ≤ (fib_device_lseek file offset orig).2 ∧ (fib_device_lseek file offset orig).2 ≤ 100 ∧
      (fib_device_lseek file offset orig).1.f_pos = (fib_device_lseek file offset orig).2 :=
  lseek_range file offset orig

set_option maxRecDepth 100000 in
/-- C12 (out-of-range indices never reach the engine).  In every state the
gateway reaches from position 0 by seeks, reads and writes, the position lies
in `[0, 100]`; a read and a write leave the state as it is; the read hands that
position to `fib_read`, whose call of `fib_sequence` then returns the Fibonacci
number of the position.  `fib_read` itself does not clamp: at the offset -1 it
passes -1 on and the engine stops. -/
theorem gateway_index_in_range (ops : List Op) :
    0 ≤ (Gateway.initial.run ops).file.f_pos ∧ (Gateway.initial.run ops).file.f_pos ≤ 100 ∧
      ((Gateway.initial.run ops).step .read).1 = Gateway.initial.run ops ∧
      (∀ buf size, ((Gateway.initial.run ops).step (.write buf size)).1 =
        Gateway.initial.run ops) ∧
      ((Gateway.initial.run ops).step .read).2 =
        .bytes (fib_read (Gateway.initial.run ops).file.f_pos) ∧
      (∃ b, fib_sequence (Gateway.initial.run ops).file.f_pos = .ok b ∧
        b.value = (Nat.fib (Gateway.initial.run ops).file.f_pos.toNat : Int)) ∧
      fib_read (-1) = .error (.badFrame (-1)) := by
  obtain ⟨h0, h1⟩ := run_pos_range ops
  refine ⟨h0, h1, rfl, fun _ _ => rfl, rfl, ?_, by decide⟩
  obtain ⟨n, hn⟩ := Int.eq_ofNat_of_zero_le h0
  rw [hn] at h1 ⊢
  obtain ⟨b, hb, -, hv⟩ := fib_sequence_spec n (by omega)
  exact ⟨b, hb, by simpa using hv⟩

/-- C13 (exclusivity).  On the lock as a boolean, `fib_open` returns `-EBUSY`
exactly when a session holds the lock, and otherwise returns 0; on `-EBUSY` the
lock is unchanged; after a successful open the lock is held and a second open
returns `-EBUSY`; `fib_release` returns 0, and after it a successful open is
followed by an open that succeeds again. -/
theorem fib_open_exclusive (m : Mutex) :
    ((fib_open m).2 = -EBUSY ↔ m.locked = true) ∧
      ((fib_open m).2 = 0 ∨ (fib_open m).2 = -EBUSY) ∧
      ((fib_open m).2 = -EBUSY → (fib_open m).1 = m) ∧
      ((fib_open m).2 = 0 → (fib_open m).1.locked = true ∧
        (fib_open (fib_open m).1).2 = -EBUSY ∧
        (fib_open (fib_release (fib_open m).1).1).2 = 0) ∧
      (fib_release m).2 = 0 := by
  cases m with
  | mk locked => cases locked <;> decide

/-- C14 (write is a no-op with a fixed result).  For every byte sequence, size
and position `fib_write` returns 1; a write leaves the state of the gateway
(file position and lock) as it is, so does any sequence of writes, and a read
after them hands back what a read without them does. -/
theorem fib_write_noop (s : Gateway) (buf : List Int) (size offset : Int)
    (ws : List (List Int × Int)) :
    fib_write buf size offset = 1 ∧ s.step (.write buf size) = (s, .count 1) ∧
      s.run (ws.map fun w => Op.write w.1 w.2) = s ∧
      ((s.run (ws.map fun w => Op.write w.1 w.2)).step .read).2 = (s.step .read).2 := by
  refine ⟨rfl, rfl, run_writes s ws, ?_⟩
  rw [run_writes s ws]

/-- C15 (truncation is unreachable in the engine's domain).  For every `n` in
`[0, 100]` the table of `fib_sequence(n)` is computed without fault: every call
of `bn_add` it makes returns a buffer (no access outside `0 .. 99`, which
includes the write of a carry out of index 0); every entry is well formed,
occupies at most 21 cells, so that its first 79 cells are sentinels, and stands
for the Fibonacci number of its index; `fib_sequence(n)` returns the entry `n`. -/
theorem fib_sequence_in_capacity (n : Nat) (hn : n ≤ 100) :
    ∃ f : List Bignum, fib_table n = .ok f ∧
      (∀ j, j + 2 ≤ n →
        bn_add (f.getD (j + 1) ⟨[]⟩) (f.getD j ⟨[]⟩) = .ok (f.getD (j + 2) ⟨[]⟩)) ∧
      (∀ j, j ≤ n → (f.getD j ⟨[]⟩).WF ∧ (f.getD j ⟨[]⟩).occupied.length ≤ 21 ∧
        79 ≤ (f.getD j ⟨[]⟩).first ∧ (f.getD j ⟨[]⟩).value = (Nat.fib j : Int)) ∧
      fib_sequence (n : Int) = .ok (f.getD n ⟨[]⟩) := by
  cases n with
  | zero =>
    refine ⟨[bn_zero, bn_one], rfl, fun j hj => by omega, ?_, ?_⟩
    · intro j hj
      have hj0 : j = 0 := by omega
      rw [hj0]
      exact ⟨by decide, by decide, by decide, by decide⟩
    · have h0 : fib_table 0 = .ok [bn_zero, bn_one] := rfl
      rw [fib_sequence_of_table 0 _ h0]
      exact congrArg Except.ok (bn_assgin_eq _ (by simp [bn_zero]))
  | succ m =>
    have hmono : Nat.fib (m + 1) ≤ Nat.fib 100 := Nat.fib_mono hn
    obtain ⟨f, htab, -, hent, hrec⟩ := fib_table_spec m (lt_of_le_of_lt hmono fib_100_lt)
    refine ⟨f, htab, hrec, ?_, (hent (m + 1) (by omega)).2.2⟩
    intro j hj
    obtain ⟨hwf, hval, -⟩ := hent j hj
    have hlen := fib_le_21 hwf j (by omega) hval
    have hsum := (render_of_WF hwf).2.1
    exact ⟨hwf, hlen, by omega, hval⟩

theorem fib_sequence_in_capacity_witness :
    100 ≤ 100 ∧ ∃ f : List Bignum, fib_table 100 = .ok f ∧
      (∀ j, j + 2 ≤ 100 →
        bn_add (f.getD (j + 1) ⟨[]⟩) (f.getD j ⟨[]⟩) = .ok (f.getD (j + 2) ⟨[]⟩)) ∧
      (∀ j, j ≤ 100 → (f.getD j ⟨[]⟩).WF ∧ (f.getD j ⟨[]⟩).occupied.length ≤ 21 ∧
        79 ≤ (f.getD j ⟨[]⟩).first ∧ (f.getD j ⟨[]⟩).value = (Nat.fib j : Int)) ∧
      fib_sequence ((100 : Nat) : Int) = .ok (f.getD 100 ⟨[]⟩) :=
  ⟨by decide, fib_sequence_in_capacity 100 (by decide)⟩

set_option maxRecDepth 100000 in
/-- C16 (result length of the adder).  For well-formed `x` and `y` of at most
99 digits each, `bn_add` returns a buffer whose number of occupied cells is
`max (len x) (len y)` or one more; it is one more exactly when a carry remains
after the most significant active position, that is when the sum reaches
`10 ^ max (len x) (len y)`, and the leading cell is then `'1'`.  Examples:
5 + 5 gives "10" and 99 + 1 gives "100". -/
theorem bn_add_length (x y : Bignum) (hx : x.WF) (hy : y.WF)
    (hx99 : x.occupied.length ≤ 99) (hy99 : y.occupied.length ≤ 99) :
    (∃ d, bn_add x y = .ok d ∧
      (d.occupied.length = max x.occupied.length y.occupied.length ∨
        d.occupied.length = max x.occupied.length y.occupied.length + 1) ∧
      (d.occupied.length = max x.occupied.length y.occupied.length + 1 ↔
        (10 : Int) ^ max x.occupied.length y.occupied.length ≤ x.value + y.value) ∧
      (d.occupied.length = max x.occupied.length y.occupied.length + 1 →
        d.occupied.head? = some 49)) ∧
      bn_add (ofDigits [53]) (ofDigits [53]) = .ok (ofDigits [49, 48]) ∧
      bn_add (ofDigits [57, 57]) (ofDigits [49]) = .ok (ofDigits [49, 48, 48]) := by
  refine ⟨?_, by decide, by decide⟩
  obtain ⟨m, c1, done1, hm, hlen, hc1, hdone, hval, hxm, hym, hlast, hres⟩ :=
    bn_add_run x y hx hy (hx.cell0_of_short hx99) (hy.cell0_of_short hy99)
  have hfx := (render_of_WF hx).2.1
  have hfy := (render_of_WF hy).2.1
  have hmx : m < x.first := (hx.sentinel_iff m (by omega)).mp hxm
  have hmy : m < y.first := (hy.sentinel_iff m (by omega)).mp hym
  have htop : x.first ≤ m + 1 ∨ y.first ≤ m + 1 := by
    rcases hlast with h | h
    · left
      by_contra hcon
      exact h ((hx.sentinel_iff (m + 1) (by omega)).mpr (by omega))
    · right
      by_contra hcon
      exact h ((hy.sentinel_iff (m + 1) (by omega)).mpr (by omega))
  have hmax : max x.occupied.length y.occupied.length = done1.length := by
    rcases htop with h | h
    · rw [max_def]; split_ifs <;> omega
    · rw [max_def]; split_ifs <;> omega
  rw [hmax]
  have hnn := cellsVal_nonneg done1 hdone
  have hlt := cellsVal_lt done1 hdone
  refine ⟨_, hres, ?_⟩
  rcases hc1 with h | h
  · rw [h] at hval ⊢
    simp only [if_true, zero_mul, zero_add] at hval ⊢
    cases hd1 : done1 with
    | nil => rw [hd1] at hlen; simp at hlen; omega
    | cons e es =>
      have he : IsDigit e := hdone e (by rw [hd1]; exact List.mem_cons_self _ _)
      have he0 : e ≠ 0 := by unfold IsDigit at he; omega
      have hrep : List.replicate m (0 : Int) ++ 0 :: e :: es =
          List.replicate (m + 1) 0 ++ e :: es := by
        rw [List.replicate_succ', List.append_assoc]; rfl
      rw [hrep, occupied_shape _ _ _ he0]
      rw [hd1] at hval hlt
      refine ⟨Or.inl rfl, ?_, ?_⟩
      · constructor
        · intro hcon; omega
        · intro hcon; linarith
      · intro hcon; omega
  · rw [h] at hval ⊢
    simp only [one_ne_zero, if_false, one_mul] at hval ⊢
    rw [occupied_shape _ _ _ (by omega)]
    refine ⟨Or.inr (by simp), ?_, fun _ => rfl⟩
    constructor
    · intro _; linarith
    · intro _; simp

theorem bn_add_length_witness :
    (ofDigits [57, 57]).WF ∧ (ofDigits [49]).WF ∧ (ofDigits [57, 57]).occupied.length ≤ 99 ∧
      (ofDigits [49]).occupied.length ≤ 99 ∧
      ∃ d, bn_add (ofDigits [57, 57]) (ofDigits [49]) = .ok d ∧
        (d.occupied.length =
            max (ofDigits [57, 57]).occupied.length (ofDigits [49]).occupied.length ∨
          d.occupied.length =
            max (ofDigits [57, 57]).occupied.length (ofDigits [49]).occupied.length + 1) ∧
        (d.occupied.length =
            max (ofDigits [57, 57]).occupied.length (ofDigits [49]).occupied.length + 1 ↔
          (10 : Int) ^ max (ofDigits [57, 57]).occupied.length (ofDigits [49]).occupied.length ≤
            (ofDigits [57, 57]).value + (ofDigits [49]).value) ∧
        (d.occupied.length =
            max (ofDigits [57, 57]).occupied.length (ofDigits [49]).occupied.length + 1 →
          d.occupied.head? = some 49) :=
  ⟨by decide, by decide, by decide, by decide,
    (bn_add_length (ofDigits [57, 57]) (ofDigits [49]) (by decide) (by decide) (by decide)
      (by decide)).1⟩

/-- C17 (unrecognised seek mode).  For every `orig` other than 0, 1 and 2, and
for every requested offset and current position, `fib_device_lseek` stores the
position 0 and returns 0. -/
theorem lseek_unknown_orig (file : File) (offset orig : Int)
    (h0 : orig ≠ 0) (h1 : orig ≠ 1) (h2 : orig ≠ 2) :
    fib_device_lseek file offset orig = (⟨0⟩, 0) := by
  simp only [fib_device_lseek, MAX_LENGTH, h0, h1, h2, if_false]
  decide

theorem lseek_unknown_orig_witness :
    (3 : Int) ≠ 0 ∧ (3 : Int) ≠ 1 ∧ (3 : Int) ≠ 2 ∧
      fib_device_lseek ⟨57⟩ 12 3 = (⟨0⟩, 0) :=
  ⟨by decide, by decide, by decide,
    lseek_unknown_orig ⟨57⟩ 12 3 (by decide) (by decide) (by decide)⟩

end Fibdrv
